import Mathlib

/-!
AiTerminal: a verification development

Shallow embedding of the Go sources

* `services/langchain_service.go` (`ProcessSingleRequest`, `ProcessConcurrentRequests`),
* `config/config.go` (`LoadConfig`),
* `terminal_ai.go` (`displayMultilineText`, the command parser and the command history
  kept by `main`).

Go strings are modelled as lists of Unicode code points (`List Char`), i.e. as the valid
UTF-8 strings; `len` is the number of bytes of the UTF-8 encoding.  The goroutines of
`ProcessConcurrentRequests` are modelled by an interleaving semantics: a schedule is the
list of goroutine indices in the order in which the scheduler lets them take a step.
-/

namespace AiTerminal

/-! ## Go strings and errors -/

/-- A Go string, as its sequence of code points. -/
abbrev GoString := List Char

/-- Go `len(s)`: the number of bytes of the UTF-8 encoding of `s`. -/
def len (s : GoString) : Nat := (s.map Char.utf8Size).sum

/-- A Go `error` value, observed through its `Error()` message; `none` is `nil`. -/
abbrev GoError := Option GoString

/-- Go `fmt.Sprintf("Error: %v", err)` for a non-nil `err` whose message is `msg`. -/
def sprintfError (msg : GoString) : GoString := "Error: ".toList ++ msg

/-! ## services/langchain_service.go -/

/-- The completion client `s.llm.Call(ctx, prompt, ...)`: a prompt is answered by a pair
`(completion, err)`. -/
abbrev LLM := GoString → GoString × GoError

/-- The format string of `ProcessSingleRequest`, up to its `%s`. -/
def promptTemplate : GoString :=
  "Answer the following question clearly and concisely: ".toList

/-- The method `ProcessSingleRequest`: builds the prompt, calls the client once and returns
`("", err)` on an error and `(completion, nil)` otherwise.  The second component is the
list of prompts that were sent to the client during the call. -/
def ProcessSingleRequest (llm : LLM) (question : GoString) :
    (GoString × GoError) × List GoString :=
  let prompt := promptTemplate ++ question
  match llm prompt with
  | (_, some err) => (([], some err), [prompt])
  | (completion, none) => ((completion, none), [prompt])

/-- Where the goroutine started for one index stands: not yet run, returned from
`ProcessSingleRequest` with `(answer, err)` but not yet written, or finished (its deferred
`wg.Done()` has run). -/
inductive Phase where
  | ready : Phase
  | called (answer : GoString) (err : GoError) : Phase
  | done : Phase
  deriving DecidableEq, Repr

/-- How many times the invocation `c = (idx, prompt)` occurs in a trace of calls. -/
def callCount (c : Nat × GoString) (calls : List (Nat × GoString)) : Nat :=
  calls.countP (fun x => decide (x = c))

/-- The shared state of one call of `ProcessConcurrentRequests`: the slice `responses`, the
phase of each goroutine, and the trace of client invocations `(idx, prompt)`. -/
structure State where
  responses : List GoString
  phases : List Phase
  calls : List (Nat × GoString)
  deriving DecidableEq, Repr

/-- The state after `responses := make([]string, len(questions))` and the `range` loop
that starts one goroutine per index. -/
def initState (questions : List GoString) : State :=
  { responses := List.replicate questions.length [],
    phases := List.replicate questions.length Phase.ready,
    calls := [] }

/-- What the goroutine stores in `responses[idx]`, from the `(answer, err)` it got. -/
def storedSlot (answer : GoString) (err : GoError) : GoString :=
  match err with
  | none => answer
  | some msg => sprintfError msg

/-- One scheduling step: the goroutine `go func(idx, q)` with `q = questions[idx]` takes
its next action.  From `ready` it calls `ProcessSingleRequest`; from `called` it writes
`responses[idx]` and finishes.  A finished goroutine, or an index for which no goroutine
was started, takes no step. -/
def step (llm : LLM) (questions : List GoString) (s : State) (idx : Nat) : State :=
  match s.phases[idx]?, questions[idx]? with
  | some Phase.ready, some q =>
      let r := ProcessSingleRequest llm q
      { s with
        phases := s.phases.set idx (Phase.called r.1.1 r.1.2),
        calls := s.calls ++ r.2.map (fun prompt => (idx, prompt)) }
  | some (Phase.called answer err), _ =>
      { s with
        responses := s.responses.set idx (storedSlot answer err),
        phases := s.phases.set idx Phase.done }
  | _, _ => s

/-- Runs the goroutines along a schedule. -/
def runSchedule (llm : LLM) (questions : List GoString) (s : State) (sched : List Nat) :
    State :=
  sched.foldl (step llm questions) s

/-- The condition `wg.Wait()` waits for: every goroutine has finished. -/
def allDone (s : State) : Bool := s.phases.all (fun p => decide (p = Phase.done))

/-- The final state of the goroutines of `ProcessConcurrentRequests` along a schedule. -/
def finalState (llm : LLM) (questions : List GoString) (sched : List Nat) : State :=
  runSchedule llm questions (initState questions) sched

/-- The method `ProcessConcurrentRequests` along a schedule: the returned slice when the
schedule lets every goroutine finish, `none` when `wg.Wait()` is still blocked at the end
of it. -/
def ProcessConcurrentRequests (llm : LLM) (questions : List GoString) (sched : List Nat) :
    Option (List GoString) :=
  let s := finalState llm questions sched
  if allDone s then some s.responses else none

/-- The client invocations `(idx, prompt)` made along a schedule, in order. -/
def clientCalls (llm : LLM) (questions : List GoString) (sched : List Nat) :
    List (Nat × GoString) :=
  (finalState llm questions sched).calls

/-- A schedule is complete for a batch when it gives every goroutine its two steps. -/
def Complete (questions : List GoString) (sched : List Nat) : Prop :=
  ∀ i, i < questions.length → 2 ≤ sched.count i

instance decidableComplete (questions : List GoString) (sched : List Nat) :
    Decidable (Complete questions sched) := by
  unfold Complete; infer_instance

/-- The per-question function of the specification: the client's answer text for the
prompt built from the question when the call succeeds, `"Error: "` followed by the error's
message when it fails. -/
def expectedSlot (llm : LLM) (question : GoString) : GoString :=
  match (llm (promptTemplate ++ question)).2 with
  | none => (llm (promptTemplate ++ question)).1
  | some msg => "Error: ".toList ++ msg

/-- The schedule that runs the goroutines one after the other, in index order. -/
def sequentialSchedule (n : Nat) : List Nat :=
  (List.range n).flatMap (fun i => [i, i])

/-- The invariant of the goroutine system: the slices keep the batch's length, a goroutine
in phase `called` holds what `ProcessSingleRequest` returns for its question, a finished
goroutine has stored the expected slot, and the trace holds exactly one call, with the
right prompt, for every goroutine that left phase `ready`. -/
structure Inv (llm : LLM) (questions : List GoString) (s : State) : Prop where
  lenR : s.responses.length = questions.length
  lenP : s.phases.length = questions.length
  called : ∀ (i : Nat) (a : GoString) (e : GoError), s.phases[i]? = some (Phase.called a e) →
    ∃ q, questions[i]? = some q ∧ (ProcessSingleRequest llm q).1 = (a, e)
  done : ∀ (i : Nat), s.phases[i]? = some Phase.done →
    ∃ q, questions[i]? = some q ∧ s.responses[i]? = some (expectedSlot llm q)
  calls : ∀ (i : Nat) (p : GoString), callCount (i, p) s.calls =
    if s.phases[i]? = some Phase.ready ∨ s.phases[i]? = none then 0
    else if questions[i]?.map (fun q => promptTemplate ++ q) = some p then 1 else 0

/-- How far a goroutine has got: 0 not run, 1 returned from the client, 2 finished. -/
def Phase.rank : Phase → Nat
  | Phase.ready => 0
  | Phase.called _ _ => 1
  | Phase.done => 2

/-- The rank of the goroutine of index `i`; an index without goroutine counts as finished. -/
def rankAt (s : State) (i : Nat) : Nat :=
  match s.phases[i]? with
  | some p => p.rank
  | none => 2

/-- The client invocations the specification expects for a batch: for every index `i`,
one call tagged `i` with the prompt built from `questions[i]`. -/
def expectedCalls (questions : List GoString) : List (Nat × GoString) :=
  questions.enum.map (fun x => (x.1, promptTemplate ++ x.2))

/-- A mock client: it answers `"4"` to the prompt for `"What is 2+2?"` and fails with
`"mock error"` on every other prompt. -/
def mockLLM : LLM := fun prompt =>
  if prompt = promptTemplate ++ "What is 2+2?".toList then ("4".toList, none)
  else ([], some "mock error".toList)

/-- The batch of the example scenario. -/
def mockBatch : List GoString := ["What is 2+2?".toList, "Name a primary color".toList]

/-- A client that echoes its prompt. -/
def echoLLM : LLM := fun prompt => (prompt, none)

/-- A client that fails on every prompt. -/
def downLLM : LLM := fun _ => ([], some "connection refused".toList)

/-- A client that succeeds on every prompt, with an answer that starts with `"Error: "`. -/
def errorTextLLM : LLM := fun _ => ("Error: none found".toList, none)

/-! ### A client with internal state

The call `s.llm.Call(ctx, prompt, ...)` reaches an external service, whose answer may
depend on what it was asked before (a rate limiter, for instance).  The definitions below
model the goroutines of `ProcessConcurrentRequests` with such a client. -/

/-- The process environment: the value bound to each variable name, `none` when unset. -/
abbrev Env := GoString → Option GoString

/-- Go `os.Getenv`: the value of the variable, the empty string when it is unset. -/
def Getenv (env : Env) (key : GoString) : GoString := (env key).getD []

/-- The NUL character, which no environment value may hold. -/
def nul : Char := Char.ofNat 0

/-- Go `os.Setenv`, as the environment after the call: the call fails (and changes
nothing) for an empty key, a key holding `=` or NUL, and a value holding NUL; otherwise it
binds the key to the value.  `LoadConfig` drops the returned error. -/
def Setenv (env : Env) (key value : GoString) : Env :=
  if key = [] ∨ key.any (fun c => c = '=' ∨ c = nul) = true ∨ value.any (fun c => c = nul) = true
  then env
  else fun k => if k = key then some value else env k

/-- The struct `Config`. -/
structure Config where
  GroqKey : GoString
  Port : GoString
  deriving DecidableEq, Repr

/-- The name of the variable `GROQ_API_KEY`. -/
def GROQ_API_KEY : GoString := "GROQ_API_KEY".toList

/-- The name of the variable `OPENAI_API_KEY`. -/
def OPENAI_API_KEY : GoString := "OPENAI_API_KEY".toList

/-- The function `LoadConfig`, as the returned configuration and the environment it leaves behind. -/
def LoadConfig (env : Env) : Config × Env :=
  let groqKey := Getenv env GROQ_API_KEY
  let groqKey := if groqKey = [] then Getenv env OPENAI_API_KEY else groqKey
  let env1 :=
    if groqKey ≠ [] ∧ Getenv env OPENAI_API_KEY = [] then Setenv env OPENAI_API_KEY groqKey
    else env
  ({ GroqKey := groqKey, Port := Getenv env1 "PORT".toList }, env1)

/-- An environment in which both keys are set, to different values. -/
def bothSetEnv : Env := fun k =>
  if k = GROQ_API_KEY then some "gsk".toList
  else if k = OPENAI_API_KEY then some "sk".toList
  else none

/-- An environment in which only `GROQ_API_KEY` is set. -/
def groqOnlyEnv : Env := fun k =>
  if k = GROQ_API_KEY then some "gsk".toList else none

/-! ## terminal_ai.go -/

/-- Go `unicode.IsSpace`. -/
def isSpace (c : Char) : Bool :=
  let n := c.toNat
  (0x09 ≤ n ∧ n ≤ 0x0D) ∨ n = 0x20 ∨ n = 0x85 ∨ n = 0xA0 ∨ n = 0x1680 ∨
    (0x2000 ≤ n ∧ n ≤ 0x200A) ∨ n = 0x2028 ∨ n = 0x2029 ∨ n = 0x202F ∨ n = 0x205F ∨
    n = 0x3000

/-- Go `strings.TrimSpace`: removes leading and trailing white space. -/
def TrimSpace (s : GoString) : GoString :=
  (s.dropWhile isSpace).rdropWhile isSpace

/-- Go `strings.HasPrefix`. -/
def HasPrefix (s pre : GoString) : Bool := pre.isPrefixOf s

/-- Go `strings.TrimPrefix`. -/
def TrimPrefix (s pre : GoString) : GoString :=
  if HasPrefix s pre then s.drop pre.length else s

/-- Go `strings.Split(s, sep)` for a separator of one character. -/
def Split : GoString → Char → List GoString
  | [], _ => [[]]
  | c :: cs, sep =>
    if c = sep then [] :: Split cs sep
    else
      match Split cs sep with
      | [] => [[c]]
      | piece :: pieces => (c :: piece) :: pieces

/-- The loop of `strings.Fields`: `cur` is the field being read. -/
def fieldsFrom (cur : GoString) : GoString → List GoString
  | [] => if cur = [] then [] else [cur]
  | c :: cs =>
    if isSpace c then
      if cur = [] then fieldsFrom [] cs else cur :: fieldsFrom [] cs
    else fieldsFrom (cur ++ [c]) cs

/-- Go `strings.Fields`: the maximal runs of characters that are not white space. -/
def Fields (s : GoString) : List GoString := fieldsFrom [] s

/-- The line feed character. -/
def newline : Char := Char.ofNat 10

/-- Go `int` arithmetic (64 bits, two's complement): the value of type `int` that the
mathematical result `x` of an addition wraps around to. -/
def wrapInt (x : Int) : Int :=
  (x + 9223372036854775808) % 18446744073709551616 - 9223372036854775808

/-- The variables of the word-wrapping loop of `displayMultilineText`, with the calls
`displayText(screen, row, text)` made so far. -/
structure WrapState where
  currentRow : Int
  currentLine : GoString
  shown : List (Int × GoString)
  deriving DecidableEq, Repr

/-- The body of `for _, word := range words` in `displayMultilineText`; the sum
`len(currentLine)+len(word)+1` and `currentRow++` are computed in `int`. -/
def wrapWord (maxWidth : Int) (st : WrapState) (word : GoString) : WrapState :=
  if wrapInt ((len st.currentLine : Int) + (len word : Int) + 1) > maxWidth then
    { currentRow := wrapInt (st.currentRow + 1),
      currentLine := word,
      shown := st.shown ++ [(st.currentRow, st.currentLine)] }
  else if st.currentLine = [] then
    { st with currentLine := word }
  else
    { st with currentLine := st.currentLine ++ " ".toList ++ word }

/-- The body of `for _, line := range lines` in `displayMultilineText`, on the pair of
`currentRow` and the calls of `displayText` made so far; `currentRow++` is computed in
`int`. -/
def displayLine (maxWidth : Int) (acc : Int × List (Int × GoString)) (line : GoString) :
    Int × List (Int × GoString) :=
  if (len line : Int) > maxWidth then
    let st := (Fields line).foldl (wrapWord maxWidth)
      { currentRow := acc.1, currentLine := [], shown := acc.2 }
    if st.currentLine ≠ [] then
      (wrapInt (st.currentRow + 1), st.shown ++ [(st.currentRow, st.currentLine)])
    else (st.currentRow, st.shown)
  else (wrapInt (acc.1 + 1), acc.2 ++ [(acc.1, line)])

/-- The function `displayMultilineText`: the returned row, and the calls
`displayText(screen, row, text)` it makes, in order.  `startRow` and `maxWidth` are values
of type `int`. -/
def displayMultilineText (startRow : Int) (text : GoString) (maxWidth : Int) :
    Int × List (Int × GoString) :=
  (Split text newline).foldl (displayLine maxWidth) (startRow, [])

/-- The calls of `displayText` in `shown` go to consecutive rows, starting at `r0`, in
`int` arithmetic. -/
def RowsFrom (r0 : Int) (shown : List (Int × GoString)) : Prop :=
  shown.map Prod.fst = (List.range shown.length).map (fun k => wrapInt (r0 + (k : Int)))

/-- The invariant of the loop over the lines: `currentRow` is the first row plus the
number of rows displayed (in `int` arithmetic), the rows are consecutive, and every
displayed text is at most `maxWidth` bytes long or satisfies `Q`. -/
structure ShownInv (maxWidth : Int) (Q : GoString → Prop) (r0 : Int)
    (acc : Int × List (Int × GoString)) : Prop where
  row : acc.1 = wrapInt (r0 + (acc.2.length : Int))
  rows : RowsFrom r0 acc.2
  shown : ∀ c ∈ acc.2, (len c.2 : Int) ≤ maxWidth ∨ Q c.2

/-- The invariant of the word-wrapping loop: that of the loop over the lines, and the line
being built is at most `maxWidth` bytes long or satisfies `Q`. -/
structure WrapInv (maxWidth : Int) (Q : GoString → Prop) (r0 : Int) (st : WrapState) :
    Prop where
  acc : ShownInv maxWidth Q r0 (st.currentRow, st.shown)
  line : (len st.currentLine : Int) ≤ maxWidth ∨ Q st.currentLine

/-- The bytes a list of words takes when each is followed by one separator. -/
def wordsCost (words : List GoString) : Nat := (words.map (fun w => len w + 1)).sum

/-- The branch of `main` that handles the text entered when the Enter key is pressed.  The
three `Missing` branches are the ones that display
`"Error: Please provide a question after 'chat'"` and its analogues. -/
inductive Command where
  | exit : Command
  | chatMissing : Command
  | chat (query : GoString) : Command
  | terminalMissing : Command
  | terminal (query : GoString) : Command
  | runMissing : Command
  | run (command : GoString) : Command
  | unknown : Command
  deriving DecidableEq, Repr

/-- The command parser of `main`: the `if`/`else if` chain on `trimmedInput`. -/
def parseCommand (inputText : GoString) : Command :=
  let trimmedInput := TrimSpace inputText
  if trimmedInput = "exit".toList then Command.exit
  else if HasPrefix trimmedInput "chat ".toList then
    let query := TrimPrefix trimmedInput "chat ".toList
    if query = [] then Command.chatMissing else Command.chat query
  else if HasPrefix trimmedInput "terminal ".toList then
    let query := TrimPrefix trimmedInput "terminal ".toList
    if query = [] then Command.terminalMissing else Command.terminal query
  else if HasPrefix trimmedInput "run ".toList then
    let command := TrimPrefix trimmedInput "run ".toList
    if command = [] then Command.runMissing else Command.run command
  else Command.unknown

/-- The entry stored in `commandHistory` for a command and its output. -/
def historyEntry (command output : GoString) : GoString :=
  "Command: ".toList ++ command ++ "\nOutput: ".toList ++ output

/-- What the `run` branch of `main` does to `commandHistory`, for the command text and
the output `executeCommand` returned: nothing for an empty command; otherwise the oldest
entry is dropped when three are stored, and the new entry is appended. -/
def runBranch (commandHistory : List GoString) (command output : GoString) :
    List GoString :=
  if command = [] then commandHistory
  else
    let commandHistory :=
      if commandHistory.length ≥ 3 then commandHistory.drop 1 else commandHistory
    commandHistory ++ [historyEntry command output]

/-- The history after a sequence of `run` commands `(command, output)`, from the empty
history `commandHistory := []string{}`. -/
def historyAfter (runs : List (GoString × GoString)) : List GoString :=
  runs.foldl (fun h r => runBranch h r.1 r.2) []

/-! # Theorems -/

/-! ### Lemmas on one step -/

theorem storedSlot_ProcessSingleRequest (llm : LLM) (q : GoString) :
    storedSlot (ProcessSingleRequest llm q).1.1 (ProcessSingleRequest llm q).1.2
      = expectedSlot llm q := by
  unfold ProcessSingleRequest expectedSlot storedSlot sprintfError
  rcases h : llm (promptTemplate ++ q) with ⟨c, _ | e⟩ <;> simp [h]

theorem ProcessSingleRequest_calls (llm : LLM) (q : GoString) :
    (ProcessSingleRequest llm q).2 = [promptTemplate ++ q] := by
  unfold ProcessSingleRequest
  rcases h : llm (promptTemplate ++ q) with ⟨c, _ | e⟩ <;> simp [h]

theorem step_responses_length (llm : LLM) (questions : List GoString) (s : State)
    (idx : Nat) : (step llm questions s idx).responses.length = s.responses.length := by
  unfold step
  split <;> simp

theorem step_phases_length (llm : LLM) (questions : List GoString) (s : State)
    (idx : Nat) : (step llm questions s idx).phases.length = s.phases.length := by
  unfold step
  split <;> simp

theorem step_phases_other (llm : LLM) (questions : List GoString) (s : State)
    (idx j : Nat) (h : j ≠ idx) :
    (step llm questions s idx).phases[j]? = s.phases[j]? := by
  unfold step
  split <;> simp [List.getElem?_set_ne (Ne.symm h)]

theorem step_responses_other (llm : LLM) (questions : List GoString) (s : State)
    (idx j : Nat) (h : j ≠ idx) :
    (step llm questions s idx).responses[j]? = s.responses[j]? := by
  unfold step
  split <;> simp [List.getElem?_set_ne (Ne.symm h)]

theorem inv_initState (llm : LLM) (questions : List GoString) :
    Inv llm questions (initState questions) := by
  have hph : ∀ i : Nat, (initState questions).phases[i]? = some Phase.ready ∨
      (initState questions).phases[i]? = none := by
    intro i
    by_cases h : i < questions.length
    · left; simp [initState, List.getElem?_replicate, h]
    · right; simp [initState, List.getElem?_replicate, h]
  refine ⟨by simp [initState], by simp [initState], ?_, ?_, ?_⟩
  · intro i a e h
    rcases hph i with h1 | h1 <;> rw [h1] at h <;> simp at h
  · intro i h
    rcases hph i with h1 | h1 <;> rw [h1] at h <;> simp at h
  · intro i p
    rw [if_pos (hph i)]
    simp [initState, callCount]

theorem inv_step (llm : LLM) (questions : List GoString) (s : State) (idx : Nat)
    (hs : Inv llm questions s) : Inv llm questions (step llm questions s idx) := by
  unfold step
  split
  · -- the goroutine calls the client
    rename_i q hp hq
    have hidx : idx < s.phases.length := by
      rcases List.getElem?_eq_some_iff.1 hp with ⟨h, _⟩; exact h
    refine ⟨hs.lenR, by simpa using hs.lenP, ?_, ?_, ?_⟩
    · intro i a e h
      by_cases hi : i = idx
      · subst hi
        simp [List.getElem?_set_self hidx] at h
        exact ⟨q, hq, by rw [← h.1, ← h.2]⟩
      · rw [show (List.set s.phases idx _)[i]? = s.phases[i]? from
          List.getElem?_set_ne (Ne.symm hi)] at h
        exact hs.called i a e h
    · intro i h
      by_cases hi : i = idx
      · subst hi
        simp [List.getElem?_set_self hidx] at h
      · rw [show (List.set s.phases idx _)[i]? = s.phases[i]? from
          List.getElem?_set_ne (Ne.symm hi)] at h
        exact hs.done i h
    · intro i p
      by_cases hi : i = idx
      · subst hi
        have h0 := hs.calls i p
        rw [if_pos (Or.inl hp)] at h0
        unfold callCount at h0 ⊢
        simp [List.getElem?_set_self hidx, ProcessSingleRequest_calls, List.countP_append,
          h0, hq, List.countP_cons]
      · have h0 := hs.calls i p
        have hne : ¬ (idx = i) := fun h => hi h.symm
        unfold callCount at h0 ⊢
        simp only [ProcessSingleRequest_calls, List.map_cons, List.map_nil,
          List.countP_append, List.countP_cons, List.countP_nil, Prod.mk.injEq, hne,
          false_and, decide_False, List.getElem?_set_ne (Ne.symm hi)]
        simpa using h0
  · -- the goroutine writes its slot and finishes
    rename_i a e hp
    have hidx : idx < s.phases.length := by
      rcases List.getElem?_eq_some_iff.1 hp with ⟨h, _⟩; exact h
    have hidxR : idx < s.responses.length := by rw [hs.lenR, ← hs.lenP]; exact hidx
    refine ⟨by simpa using hs.lenR, by simpa using hs.lenP, ?_, ?_, ?_⟩
    · intro i a1 e1 h
      by_cases hi : i = idx
      · subst hi
        simp [List.getElem?_set_self hidx] at h
      · rw [show (List.set s.phases idx _)[i]? = s.phases[i]? from
          List.getElem?_set_ne (Ne.symm hi)] at h
        exact hs.called i a1 e1 h
    · intro i h
      by_cases hi : i = idx
      · subst hi
        obtain ⟨q, hq, hr⟩ := hs.called i a e hp
        refine ⟨q, hq, ?_⟩
        have := storedSlot_ProcessSingleRequest llm q
        rw [hr] at this
        simp [List.getElem?_set_self hidxR, this]
      · rw [show (List.set s.phases idx _)[i]? = s.phases[i]? from
          List.getElem?_set_ne (Ne.symm hi)] at h
        obtain ⟨q, hq, hr⟩ := hs.done i h
        exact ⟨q, hq, by
          rw [show (List.set s.responses idx _)[i]? = s.responses[i]? from
            List.getElem?_set_ne (Ne.symm hi)]; exact hr⟩
    · intro i p
      by_cases hi : i = idx
      · subst hi
        have h0 := hs.calls i p
        simp [hp] at h0
        simp [List.getElem?_set_self hidx, h0]
      · have h0 := hs.calls i p
        simp only [List.getElem?_set_ne (Ne.symm hi)]
        exact h0
  · exact hs

theorem inv_runSchedule (llm : LLM) (questions : List GoString) (sched : List Nat) :
    ∀ s, Inv llm questions s → Inv llm questions (runSchedule llm questions s sched) := by
  induction sched with
  | nil => intro s hs; exact hs
  | cons i rest ih =>
    intro s hs
    exact ih _ (inv_step llm questions s i hs)

theorem inv_finalState (llm : LLM) (questions : List GoString) (sched : List Nat) :
    Inv llm questions (finalState llm questions sched) :=
  inv_runSchedule llm questions sched _ (inv_initState llm questions)

theorem rankAt_step (llm : LLM) (questions : List GoString) (s : State) (idx i : Nat)
    (hlen : s.phases.length = questions.length) :
    rankAt (step llm questions s idx) i
      = if i = idx then min 2 (rankAt s i + 1) else rankAt s i := by
  by_cases hi : i = idx
  · subst hi
    rw [if_pos rfl]
    unfold step
    split
    · rename_i q hp hq
      have hidx : i < s.phases.length := (List.getElem?_eq_some_iff.1 hp).1
      simp [rankAt, List.getElem?_set_self hidx, hp, Phase.rank]
    · rename_i a e hp
      have hidx : i < s.phases.length := (List.getElem?_eq_some_iff.1 hp).1
      simp [rankAt, List.getElem?_set_self hidx, hp, Phase.rank]
    · rename_i h1 h2
      unfold rankAt
      rcases hp : s.phases[i]? with _ | ph
      · simp
      · cases ph with
        | ready =>
          have hidx : i < questions.length := by
            rw [← hlen]; exact (List.getElem?_eq_some_iff.1 hp).1
          exact absurd (List.getElem?_eq_getElem hidx) (h2 _ hp)
        | called a e => exact absurd hp (h1 a e)
        | done => simp [Phase.rank]
  · rw [if_neg hi]
    unfold rankAt
    rw [step_phases_other llm questions s idx i hi]

theorem rankAt_runSchedule (llm : LLM) (questions : List GoString) (i : Nat)
    (sched : List Nat) :
    ∀ s, s.phases.length = questions.length →
      rankAt (runSchedule llm questions s sched) i = min 2 (rankAt s i + sched.count i) := by
  induction sched with
  | nil =>
    intro s _
    have : rankAt s i ≤ 2 := by
      unfold rankAt
      rcases s.phases[i]? with _ | ph
      · simp
      · cases ph <;> simp [Phase.rank]
    simp [runSchedule]; omega
  | cons j rest ih =>
    intro s hlen
    have hlen2 : (step llm questions s j).phases.length = questions.length := by
      rw [step_phases_length]; exact hlen
    have h := ih (step llm questions s j) hlen2
    simp only [runSchedule, List.foldl_cons] at h ⊢
    rw [h, rankAt_step llm questions s j i hlen, List.count_cons]
    by_cases hij : i = j
    · subst hij; simp; omega
    · have : (j == i) = false := by simp; exact fun h => hij h.symm
      simp [hij, this]

theorem rankAt_initState (questions : List GoString) (i : Nat) (h : i < questions.length) :
    rankAt (initState questions) i = 0 := by
  simp [rankAt, initState, List.getElem?_replicate, h, Phase.rank]

theorem allDone_iff_rank (s : State) :
    allDone s = true ↔ ∀ i, i < s.phases.length → rankAt s i = 2 := by
  unfold allDone
  rw [List.all_eq_true]
  constructor
  · intro h i hi
    have hm : s.phases[i] ∈ s.phases := List.getElem_mem hi
    have := h _ hm
    simp at this
    simp [rankAt, List.getElem?_eq_getElem hi, this, Phase.rank]
  · intro h p hp
    obtain ⟨i, hi, rfl⟩ := List.getElem_of_mem hp
    have := h i hi
    simp only [rankAt, List.getElem?_eq_getElem hi] at this
    cases hph : s.phases[i] with
    | ready => rw [hph] at this; simp [Phase.rank] at this
    | called a e => rw [hph] at this; simp [Phase.rank] at this
    | done => simp

theorem allDone_finalState_iff (llm : LLM) (questions : List GoString) (sched : List Nat) :
    allDone (finalState llm questions sched) = true ↔ Complete questions sched := by
  rw [allDone_iff_rank, (inv_finalState llm questions sched).lenP]
  unfold Complete
  constructor
  · intro h i hi
    have := h i hi
    rw [finalState, rankAt_runSchedule llm questions i sched _ (by simp [initState]),
      rankAt_initState questions i hi] at this
    omega
  · intro h i hi
    have := h i hi
    rw [finalState, rankAt_runSchedule llm questions i sched _ (by simp [initState]),
      rankAt_initState questions i hi]
    omega

theorem responses_of_allDone (llm : LLM) (questions : List GoString) (s : State)
    (hs : Inv llm questions s) (hd : allDone s = true) :
    s.responses = questions.map (expectedSlot llm) := by
  apply List.ext_getElem?
  intro i
  by_cases hi : i < questions.length
  · have hip : i < s.phases.length := by rw [hs.lenP]; exact hi
    have hr := (allDone_iff_rank s).1 hd i hip
    have hdone : s.phases[i]? = some Phase.done := by
      simp only [rankAt, List.getElem?_eq_getElem hip] at hr
      rw [List.getElem?_eq_getElem hip]
      cases hph : s.phases[i] with
      | ready => rw [hph] at hr; simp [Phase.rank] at hr
      | called a e => rw [hph] at hr; simp [Phase.rank] at hr
      | done => rfl
    obtain ⟨q, hq, hres⟩ := hs.done i hdone
    rw [hres, List.getElem?_map, hq]; rfl
  · have h1 : s.responses[i]? = none := by
      rw [List.getElem?_eq_none_iff, hs.lenR]; omega
    have h2 : (questions.map (expectedSlot llm))[i]? = none := by
      rw [List.getElem?_eq_none_iff, List.length_map]; omega
    rw [h1, h2]

theorem processConcurrentRequests_of_complete (llm : LLM) (questions : List GoString)
    (sched : List Nat) (h : Complete questions sched) :
    ProcessConcurrentRequests llm questions sched
      = some (questions.map (expectedSlot llm)) := by
  have hd := (allDone_finalState_iff llm questions sched).2 h
  simp only [ProcessConcurrentRequests, hd, if_true]
  rw [responses_of_allDone llm questions _ (inv_finalState llm questions sched) hd]

theorem getElem?_map_expectedSlot (llm : LLM) (questions : List GoString) (i : Nat)
    (q : GoString) (h : questions[i]? = some q) :
    (questions.map (expectedSlot llm))[i]? = some (expectedSlot llm q) := by
  rw [List.getElem?_map, h]; rfl

theorem expectedSlot_ok (llm : LLM) (q text : GoString)
    (h : llm (promptTemplate ++ q) = (text, none)) : expectedSlot llm q = text := by
  simp [expectedSlot, h]

theorem expectedSlot_err (llm : LLM) (q text msg : GoString)
    (h : llm (promptTemplate ++ q) = (text, some msg)) :
    expectedSlot llm q = "Error: ".toList ++ msg := by
  simp [expectedSlot, h]

/-! ### The claims on `ProcessConcurrentRequests` -/

theorem count_sequentialSchedule (n i : Nat) (h : i < n) :
    2 ≤ (sequentialSchedule n).count i := by
  induction n with
  | zero => omega
  | succ n ih =>
    have e : sequentialSchedule (n + 1) = sequentialSchedule n ++ [n, n] := by
      simp [sequentialSchedule, List.range_succ, List.flatMap_append]
    rw [e, List.count_append]
    by_cases hi : i < n
    · have := ih hi
      omega
    · have hin : i = n := by omega
      subst hin
      simp

theorem complete_sequentialSchedule (questions : List GoString) :
    Complete questions (sequentialSchedule questions.length) :=
  fun i hi => count_sequentialSchedule questions.length i hi

/-- C1: for every batch and every completion client, `ProcessConcurrentRequests` returns
(a complete schedule exists) and, along every complete schedule, it returns the in-order
map of the per-question function over the batch: the slot at index `i` is the client's
answer text for the prompt built from `questions[i]` when that call succeeds, and
`"Error: "` followed by the error's message when it fails. -/
theorem processConcurrentRequests_in_order (llm : LLM) (questions : List GoString) :
    Complete questions (sequentialSchedule questions.length) ∧
    ∀ sched : List Nat, Complete questions sched →
      ∃ r, ProcessConcurrentRequests llm questions sched = some r ∧
        r = questions.map (expectedSlot llm) ∧
        ∀ (i : Nat) (q : GoString), questions[i]? = some q →
          (∀ text, llm (promptTemplate ++ q) = (text, none) → r[i]? = some text) ∧
          (∀ text msg, llm (promptTemplate ++ q) = (text, some msg) →
            r[i]? = some ("Error: ".toList ++ msg)) := by
  refine ⟨complete_sequentialSchedule questions, fun sched h => ?_⟩
  refine ⟨_, processConcurrentRequests_of_complete llm questions sched h, rfl, ?_⟩
  intro i q hq
  constructor
  · intro text ht
    rw [getElem?_map_expectedSlot llm questions i q hq, expectedSlot_ok llm q text ht]
  · intro text msg ht
    rw [getElem?_map_expectedSlot llm questions i q hq, expectedSlot_err llm q text msg ht]

theorem processConcurrentRequests_in_order_witness :
    Complete mockBatch [1, 0, 0, 1] ∧
    ∃ r, ProcessConcurrentRequests mockLLM mockBatch [1, 0, 0, 1] = some r ∧
      r = mockBatch.map (expectedSlot mockLLM) ∧
      ∀ (i : Nat) (q : GoString), mockBatch[i]? = some q →
        (∀ text, mockLLM (promptTemplate ++ q) = (text, none) → r[i]? = some text) ∧
        (∀ text msg, mockLLM (promptTemplate ++ q) = (text, some msg) →
          r[i]? = some ("Error: ".toList ++ msg)) :=
  ⟨by decide,
    (processConcurrentRequests_in_order mockLLM mockBatch).2 [1, 0, 0, 1] (by decide)⟩

/-- C2: along every complete schedule and for every completion client, failing or not, the
list `ProcessConcurrentRequests` returns has the length of the batch. -/
theorem processConcurrentRequests_length (llm : LLM) (questions : List GoString)
    (sched : List Nat) (h : Complete questions sched) :
    ∃ r, ProcessConcurrentRequests llm questions sched = some r ∧
      r.length = questions.length := by
  refine ⟨_, processConcurrentRequests_of_complete llm questions sched h, ?_⟩
  simp

theorem processConcurrentRequests_length_witness :
    Complete mockBatch [0, 1, 1, 0] ∧
    ∃ r, ProcessConcurrentRequests downLLM mockBatch [0, 1, 1, 0] = some r ∧
      r.length = mockBatch.length :=
  ⟨by decide, processConcurrentRequests_length downLLM mockBatch [0, 1, 1, 0] (by decide)⟩

/-- C3, as the claim states it, fails: with a client that succeeds with the answer
`"Error: none found"`, the slot is `"Error: "`-prefixed although the client returned no
error. -/
theorem error_prefix_iff_failure_counterexample :
    ¬ (∀ (llm : LLM) (questions : List GoString) (sched : List Nat) (r : List GoString),
        ProcessConcurrentRequests llm questions sched = some r →
        ∀ (i : Nat) (q slot : GoString), questions[i]? = some q → r[i]? = some slot →
          ("Error: ".toList <+: slot ↔ (llm (promptTemplate ++ q)).2 ≠ none)) := by
  intro h
  have h1 := h errorTextLLM ["q".toList] [0, 0] ["Error: none found".toList] (by decide)
    0 "q".toList "Error: none found".toList (by decide) (by decide)
  exact absurd (h1.1 ⟨"none found".toList, by decide⟩) (by decide)

/-- C3, amended: along every complete schedule, the slot at index `i` is `"Error: "`
followed by the error's message when the client failed on `questions[i]` and the client's
answer text when it succeeded; hence the slot is `"Error: "`-prefixed if and only if the
client returned an error or its answer text itself starts with `"Error: "`. -/
theorem partial_failure_containment (llm : LLM) (questions : List GoString)
    (sched : List Nat) (h : Complete questions sched) :
    ∃ r, ProcessConcurrentRequests llm questions sched = some r ∧
      ∀ (i : Nat) (q : GoString), questions[i]? = some q →
        ∃ slot, r[i]? = some slot ∧
          (∀ msg, (llm (promptTemplate ++ q)).2 = some msg → slot = "Error: ".toList ++ msg) ∧
          ((llm (promptTemplate ++ q)).2 = none → slot = (llm (promptTemplate ++ q)).1) ∧
          ("Error: ".toList <+: slot ↔
            ((llm (promptTemplate ++ q)).2 ≠ none ∨
              "Error: ".toList <+: (llm (promptTemplate ++ q)).1)) := by
  refine ⟨_, processConcurrentRequests_of_complete llm questions sched h, ?_⟩
  intro i q hq
  refine ⟨_, getElem?_map_expectedSlot llm questions i q hq, ?_, ?_, ?_⟩
  · intro msg hm
    simp [expectedSlot, hm]
  · intro hn
    simp [expectedSlot, hn]
  · rcases hl : llm (promptTemplate ++ q) with ⟨text, _ | msg⟩
    · simp [expectedSlot, hl]
    · simp only [expectedSlot, hl]
      constructor
      · intro _; left; simp
      · intro _; exact List.prefix_append _ _

theorem partial_failure_containment_witness :
    Complete mockBatch [0, 1, 0, 1] ∧
    ProcessConcurrentRequests mockLLM mockBatch [0, 1, 0, 1]
      = some ["4".toList, "Error: mock error".toList] ∧
    ∃ r, ProcessConcurrentRequests mockLLM mockBatch [0, 1, 0, 1] = some r ∧
      ∀ (i : Nat) (q : GoString), mockBatch[i]? = some q →
        ∃ slot, r[i]? = some slot ∧
          (∀ msg, (mockLLM (promptTemplate ++ q)).2 = some msg →
            slot = "Error: ".toList ++ msg) ∧
          ((mockLLM (promptTemplate ++ q)).2 = none →
            slot = (mockLLM (promptTemplate ++ q)).1) ∧
          ("Error: ".toList <+: slot ↔
            ((mockLLM (promptTemplate ++ q)).2 ≠ none ∨
              "Error: ".toList <+: (mockLLM (promptTemplate ++ q)).1)) :=
  ⟨by decide, by decide,
    partial_failure_containment mockLLM mockBatch [0, 1, 0, 1] (by decide)⟩

theorem callCount_eq_count (c : Nat × GoString) (calls : List (Nat × GoString)) :
    callCount c calls = @List.count _ instBEqOfDecidableEq c calls := rfl

theorem callCount_eq_zero (c : Nat × GoString) (calls : List (Nat × GoString)) :
    callCount c calls = 0 ↔ c ∉ calls := by
  rw [callCount, List.countP_eq_zero]
  constructor
  · intro h hm
    have := h c hm
    simp at this
  · intro h x hx
    have : x ≠ c := fun e => h (e ▸ hx)
    simp [this]

theorem count_calls_of_allDone (llm : LLM) (questions : List GoString) (s : State)
    (hs : Inv llm questions s) (hd : allDone s = true) (i : Nat) (p : GoString) :
    callCount (i, p) s.calls
      = if questions[i]?.map (fun q => promptTemplate ++ q) = some p then 1 else 0 := by
  rw [hs.calls i p]
  by_cases hi : i < questions.length
  · have hip : i < s.phases.length := by rw [hs.lenP]; exact hi
    have hr := (allDone_iff_rank s).1 hd i hip
    have hne : ¬ (s.phases[i]? = some Phase.ready ∨ s.phases[i]? = none) := by
      rintro (h1 | h1)
      · simp [rankAt, h1, Phase.rank] at hr
      · rw [List.getElem?_eq_none_iff] at h1; omega
    rw [if_neg hne]
  · have h1 : s.phases[i]? = none := by
      rw [List.getElem?_eq_none_iff, hs.lenP]; omega
    have h2 : questions[i]? = none := by
      rw [List.getElem?_eq_none_iff]; omega
    simp [h1, h2]

theorem nodup_expectedCalls (questions : List GoString) : (expectedCalls questions).Nodup := by
  apply List.Nodup.of_map Prod.fst
  have : List.map Prod.fst (expectedCalls questions) = List.range questions.length := by
    unfold expectedCalls
    rw [List.map_map]
    exact List.enum_map_fst questions
  rw [this]
  exact List.nodup_range _

theorem mem_expectedCalls (questions : List GoString) (i : Nat) (p : GoString) :
    (i, p) ∈ expectedCalls questions
      ↔ questions[i]?.map (fun q => promptTemplate ++ q) = some p := by
  unfold expectedCalls
  rw [List.mem_map]
  constructor
  · rintro ⟨⟨j, q⟩, hm, he⟩
    rw [List.mem_enum_iff_getElem?] at hm
    simp only [Prod.mk.injEq] at he
    obtain ⟨rfl, rfl⟩ := he
    simp at hm
    simp [hm]
  · intro h
    rcases hq : questions[i]? with _ | q
    · simp [hq] at h
    · simp [hq] at h
      exact ⟨(i, q), by rw [List.mem_enum_iff_getElem?]; exact hq, by simp [h]⟩

theorem count_expectedCalls (questions : List GoString) (i : Nat) (p : GoString) :
    callCount (i, p) (expectedCalls questions)
      = if questions[i]?.map (fun q => promptTemplate ++ q) = some p then 1 else 0 := by
  rw [callCount_eq_count, List.count_eq_of_nodup (nodup_expectedCalls questions)]
  by_cases h : (i, p) ∈ expectedCalls questions
  · rw [if_pos h, if_pos ((mem_expectedCalls questions i p).1 h)]
  · rw [if_neg h, if_neg (fun h2 => h ((mem_expectedCalls questions i p).2 h2))]

theorem clientCalls_perm (llm : LLM) (questions : List GoString) (sched : List Nat)
    (h : Complete questions sched) :
    (clientCalls llm questions sched).Perm (expectedCalls questions) := by
  rw [List.perm_iff_count]
  rintro ⟨i, p⟩
  rw [← callCount_eq_count, ← callCount_eq_count, count_expectedCalls]
  exact count_calls_of_allDone llm questions _ (inv_finalState llm questions sched)
    ((allDone_finalState_iff llm questions sched).2 h) i p

theorem complete_nil (sched : List Nat) : Complete [] sched := by
  intro i hi
  simp at hi

/-- C4: along every complete schedule `ProcessConcurrentRequests` invokes the client
exactly once per index, `len(batch)` times in total: the calls are, up to their order, one
call per index `i` carrying the prompt
`"Answer the following question clearly and concisely: "` followed by `questions[i]`
(duplicate and blank questions included); for the empty batch the result is the empty list
and the client is never invoked. -/
theorem client_called_once_per_index (llm : LLM) (questions : List GoString)
    (sched : List Nat) (h : Complete questions sched) :
    (clientCalls llm questions sched).Perm
        (questions.enum.map (fun x =>
          (x.1, "Answer the following question clearly and concisely: ".toList ++ x.2))) ∧
      (clientCalls llm questions sched).length = questions.length ∧
      (∀ (i : Nat) (q : GoString), questions[i]? = some q → ∀ p : GoString,
        callCount (i, p) (clientCalls llm questions sched)
          = if p = "Answer the following question clearly and concisely: ".toList ++ q
            then 1 else 0) ∧
      (∀ (i : Nat) (p : GoString), questions.length ≤ i →
        (i, p) ∉ clientCalls llm questions sched) ∧
      (∀ sched0 : List Nat, ProcessConcurrentRequests llm [] sched0 = some [] ∧
        clientCalls llm [] sched0 = []) := by
  have ht : "Answer the following question clearly and concisely: ".toList = promptTemplate :=
    rfl
  rw [ht]
  have hperm := clientCalls_perm llm questions sched h
  have hcount := count_calls_of_allDone llm questions _ (inv_finalState llm questions sched)
    ((allDone_finalState_iff llm questions sched).2 h)
  refine ⟨hperm, ?_, ?_, ?_, ?_⟩
  · rw [hperm.length_eq]; simp [expectedCalls]
  · intro i q hq p
    have := hcount i p
    simp only [clientCalls]
    rw [this, hq]
    by_cases hp : p = promptTemplate ++ q
    · simp [hp]
    · have : ¬ (promptTemplate ++ q = p) := fun h => hp h.symm
      simp [hp, this]
  · intro i p hi hm
    have hc := hcount i p
    have h2 : questions[i]? = none := by
      rw [List.getElem?_eq_none_iff]; omega
    rw [h2, Option.map_none', if_neg (by simp)] at hc
    exact (callCount_eq_zero _ _).1 hc hm
  · intro sched0
    refine ⟨processConcurrentRequests_of_complete llm [] sched0 (complete_nil sched0), ?_⟩
    have := (clientCalls_perm llm [] sched0 (complete_nil sched0)).length_eq
    simpa [expectedCalls] using this

theorem client_called_once_per_index_witness :
    Complete ["a".toList, [], "a".toList] [2, 0, 1, 1, 0, 2] ∧
    clientCalls echoLLM ["a".toList, [], "a".toList] [2, 0, 1, 1, 0, 2]
      = [(2, "Answer the following question clearly and concisely: a".toList),
          (0, "Answer the following question clearly and concisely: a".toList),
          (1, "Answer the following question clearly and concisely: ".toList)] ∧
    (clientCalls echoLLM ["a".toList, [], "a".toList] [2, 0, 1, 1, 0, 2]).length = 3 :=
  ⟨by decide, by decide,
    (client_called_once_per_index echoLLM ["a".toList, [], "a".toList] [2, 0, 1, 1, 0, 2]
      (by decide)).2.1⟩

/-- C5: for a deterministic client and two batches with the same question at index `i`,
the results of `ProcessConcurrentRequests` (along any complete schedules) have the same
value at index `i`; with the client that echoes its prompt, the slot at index `i` contains
`questions[i]` as a substring. -/
theorem slot_depends_only_on_own_question (llm : LLM) (batchA batchB : List GoString)
    (schedA schedB : List Nat) (i : Nat) (q : GoString)
    (hA : Complete batchA schedA) (hB : Complete batchB schedB)
    (hAi : batchA[i]? = some q) (hBi : batchB[i]? = some q) :
    (∃ rA rB slot, ProcessConcurrentRequests llm batchA schedA = some rA ∧
        ProcessConcurrentRequests llm batchB schedB = some rB ∧
        rA[i]? = some slot ∧ rB[i]? = some slot) ∧
      (∃ r slot, ProcessConcurrentRequests echoLLM batchA schedA = some r ∧
        r[i]? = some slot ∧ q <:+: slot) := by
  constructor
  · exact ⟨_, _, _, processConcurrentRequests_of_complete llm batchA schedA hA,
      processConcurrentRequests_of_complete llm batchB schedB hB,
      getElem?_map_expectedSlot llm batchA i q hAi,
      getElem?_map_expectedSlot llm batchB i q hBi⟩
  · refine ⟨_, _, processConcurrentRequests_of_complete echoLLM batchA schedA hA,
      getElem?_map_expectedSlot echoLLM batchA i q hAi, ?_⟩
    have : expectedSlot echoLLM q = promptTemplate ++ q := by
      simp [expectedSlot, echoLLM]
    rw [this]
    exact ⟨promptTemplate, [], by simp⟩

theorem slot_depends_only_on_own_question_witness :
    (∃ rA rB slot, ProcessConcurrentRequests mockLLM mockBatch [1, 0, 0, 1] = some rA ∧
        ProcessConcurrentRequests mockLLM
          ["What is 2+2?".toList, "other".toList, "more".toList] [2, 2, 1, 0, 1, 0] = some rB ∧
        rA[0]? = some slot ∧ rB[0]? = some slot) ∧
      (∃ r slot, ProcessConcurrentRequests echoLLM mockBatch [1, 0, 0, 1] = some r ∧
        r[0]? = some slot ∧ "What is 2+2?".toList <:+: slot) :=
  slot_depends_only_on_own_question mockLLM mockBatch
    ["What is 2+2?".toList, "other".toList, "more".toList] [1, 0, 0, 1] [2, 2, 1, 0, 1, 0] 0
    "What is 2+2?".toList (by decide) (by decide) (by decide) (by decide)

/-! ### The goroutines with a stateful client -/

/-- C7, as the claim states it, fails: when both variables are set, to different values,
`LoadConfig` leaves `OPENAI_API_KEY` as it was. -/
theorem loadConfig_keeps_openai_key_counterexample :
    ¬ (∀ env : Env, Getenv env GROQ_API_KEY ≠ [] →
        Getenv (LoadConfig env).2 OPENAI_API_KEY = Getenv (LoadConfig env).2 GROQ_API_KEY) := by
  intro h
  exact absurd (h bothSetEnv (by decide)) (by decide)

/-- C7, amended: for every process environment in which `GROQ_API_KEY` is set (non-empty,
and free of NUL as every environment value is), after `LoadConfig` returns,
`OPENAI_API_KEY` equals `GROQ_API_KEY` if `OPENAI_API_KEY` was unset or empty before; if
`OPENAI_API_KEY` was non-empty the environment is unchanged.  In both cases
`GROQ_API_KEY` keeps its value and is the `GroqKey` of the configuration. -/
theorem loadConfig_aliases_unset_openai_key (env : Env)
    (hg : Getenv env GROQ_API_KEY ≠ []) (hn : nul ∉ Getenv env GROQ_API_KEY) :
    (Getenv env OPENAI_API_KEY = [] →
        Getenv (LoadConfig env).2 OPENAI_API_KEY = Getenv (LoadConfig env).2 GROQ_API_KEY) ∧
      (Getenv env OPENAI_API_KEY ≠ [] → (LoadConfig env).2 = env) ∧
      Getenv (LoadConfig env).2 GROQ_API_KEY = Getenv env GROQ_API_KEY ∧
      (LoadConfig env).1.GroqKey = Getenv env GROQ_API_KEY := by
  have hkey : ¬ (OPENAI_API_KEY = [] ∨
      OPENAI_API_KEY.any (fun c => c = '=' ∨ c = nul) = true ∨
      (Getenv env GROQ_API_KEY).any (fun c => c = nul) = true) := by
    rintro (h | h | h)
    · exact absurd h (by decide)
    · exact absurd h (by decide)
    · simp at h
      exact hn h
  have hne : GROQ_API_KEY ≠ OPENAI_API_KEY := by decide
  by_cases ho : Getenv env OPENAI_API_KEY = []
  · have henv : (LoadConfig env).2
        = fun k => if k = OPENAI_API_KEY then some (Getenv env GROQ_API_KEY) else env k := by
      simp only [LoadConfig, if_neg hg]
      rw [if_pos ⟨hg, ho⟩]
      unfold Setenv
      rw [if_neg hkey]
    refine ⟨fun _ => ?_, fun h => absurd ho h, ?_, ?_⟩
    · rw [henv]; simp [Getenv, hne]
    · rw [henv]; simp [Getenv, hne]
    · simp [LoadConfig, hg]
  · have henv : (LoadConfig env).2 = env := by
      simp [LoadConfig, ho]
    refine ⟨fun h => absurd h ho, fun _ => henv, ?_, ?_⟩
    · rw [henv]
    · simp [LoadConfig, hg]

theorem loadConfig_aliases_unset_openai_key_witness :
    Getenv (LoadConfig groqOnlyEnv).2 OPENAI_API_KEY = "gsk".toList ∧
    (Getenv groqOnlyEnv OPENAI_API_KEY = [] →
      Getenv (LoadConfig groqOnlyEnv).2 OPENAI_API_KEY
        = Getenv (LoadConfig groqOnlyEnv).2 GROQ_API_KEY) :=
  ⟨by decide,
    (loadConfig_aliases_unset_openai_key groqOnlyEnv (by decide) (by decide)).1⟩

/-! ### The claim on the command history -/

theorem historyAfter_append (runs : List (GoString × GoString)) (r : GoString × GoString) :
    historyAfter (runs ++ [r]) = runBranch (historyAfter runs) r.1 r.2 := by
  simp [historyAfter, List.foldl_append]

theorem historyAfter_eq (runs : List (GoString × GoString)) (h : ∀ r ∈ runs, r.1 ≠ []) :
    historyAfter runs
      = (runs.map (fun r => historyEntry r.1 r.2)).drop (runs.length - 3) := by
  induction runs using List.reverseRecOn with
  | nil => rfl
  | append_singleton runs r ih =>
    have hr : r.1 ≠ [] := h r (by simp)
    have ih1 := ih (fun x hx => h x (by simp [hx]))
    rw [historyAfter_append, ih1]
    simp only [runBranch, if_neg hr, List.map_append, List.map_cons, List.map_nil,
      List.length_append, List.length_singleton, List.length_drop, List.length_map,
      List.drop_drop]
    by_cases hlen : runs.length ≥ 3
    · have h3 : runs.length - (runs.length - 3) ≥ 3 := by omega
      rw [if_pos h3, ← List.drop_append_of_le_length (by simp; omega)]
      congr 1
      omega
    · have h3 : ¬ (runs.length - (runs.length - 3) ≥ 3) := by omega
      rw [if_neg h3]
      have e1 : runs.length - 3 = 0 := by omega
      have e2 : runs.length + 1 - 3 = 0 := by omega
      rw [e1, e2]
      simp

/-- C8: starting from the empty history, after any sequence of `n` non-empty `run` commands
the history holds exactly `min(n, 3)` entries, the entries
`"Command: <command>\nOutput: <output>"` of the most recent `min(n, 3)` commands, oldest
first; its length never exceeds 3. -/
theorem history_keeps_last_three (runs : List (GoString × GoString))
    (h : ∀ r ∈ runs, r.1 ≠ []) :
    historyAfter runs
        = (runs.map (fun r => "Command: ".toList ++ r.1 ++ "\nOutput: ".toList ++ r.2)).drop
            (runs.length - min runs.length 3) ∧
      (historyAfter runs).length = min runs.length 3 ∧
      (historyAfter runs).length ≤ 3 := by
  have e := historyAfter_eq runs h
  have hm : runs.length - min runs.length 3 = runs.length - 3 := by omega
  refine ⟨by rw [e, hm]; rfl, ?_, ?_⟩
  · rw [e]; simp; omega
  · rw [e]; simp; omega

theorem history_keeps_last_three_witness :
    historyAfter [("ls".toList, "a".toList), ("pwd".toList, "/".toList),
        ("id".toList, "root".toList), ("date".toList, []), ("w".toList, "up".toList)]
      = ["Command: id\nOutput: root".toList, "Command: date\nOutput: ".toList,
          "Command: w\nOutput: up".toList] :=
  (history_keeps_last_three [("ls".toList, "a".toList), ("pwd".toList, "/".toList),
    ("id".toList, "root".toList), ("date".toList, []), ("w".toList, "up".toList)]
    (by decide)).1

/-! ### The claim on the command parser -/

theorem trimSpace_ne_of_last_space (s t : GoString) (ht : t ≠ [])
    (hlast : isSpace (t.getLast ht) = true) : TrimSpace s ≠ t := by
  intro h
  unfold TrimSpace at h
  have hne : List.rdropWhile isSpace (List.dropWhile isSpace s) ≠ [] := by rw [h]; exact ht
  have := List.rdropWhile_last_not isSpace (List.dropWhile isSpace s) hne
  simp only [h] at this
  exact this hlast

theorem eq_of_hasPrefix_of_trimPrefix_nil (t pre : GoString) (hp : HasPrefix t pre = true)
    (hq : TrimPrefix t pre = []) : t = pre := by
  unfold TrimPrefix at hq
  rw [if_pos hp] at hq
  unfold HasPrefix at hp
  rw [List.isPrefixOf_iff_prefix] at hp
  obtain ⟨rest, rfl⟩ := hp
  rw [List.drop_left] at hq
  rw [hq, List.append_nil]

theorem trimPrefix_ne_nil (s pre : GoString) (hpre : pre ≠ [])
    (hlast : isSpace (pre.getLast hpre) = true)
    (hp : HasPrefix (TrimSpace s) pre = true) : TrimPrefix (TrimSpace s) pre ≠ [] := by
  intro hq
  exact trimSpace_ne_of_last_space s pre hpre hlast
    (eq_of_hasPrefix_of_trimPrefix_nil _ _ hp hq)

theorem rdropWhile_append_spaces (w ws : GoString) (hws : ∀ c ∈ ws, isSpace c = true) :
    List.rdropWhile isSpace (w ++ ws) = List.rdropWhile isSpace w := by
  induction ws using List.reverseRecOn with
  | nil => simp
  | append_singleton l a ih =>
    rw [← List.append_assoc, List.rdropWhile_concat_pos isSpace (w ++ l) a (hws a (by simp))]
    exact ih (fun c hc => hws c (by simp [hc]))

theorem trimSpace_word_spaces (c : Char) (w ws : GoString) (hc : isSpace c = false)
    (hw : List.rdropWhile isSpace (c :: w) = c :: w) (hws : ∀ x ∈ ws, isSpace x = true) :
    TrimSpace (c :: w ++ ws) = c :: w := by
  unfold TrimSpace
  have : List.dropWhile isSpace (c :: w ++ ws) = c :: w ++ ws := by
    simp [List.dropWhile, hc]
  rw [this, rdropWhile_append_spaces (c :: w) ws hws, hw]

/-- C10: for every input, if the trimmed input has the prefix `"chat "` (respectively
`"terminal "`, `"run "`), the text that remains after removing that prefix is non-empty, so
the parser never takes one of the three branches that display
`"Error: Please provide ... after ..."`; and the bare command word, followed by any
amount of white space, is handled by the `"Unknown command"` branch. -/
theorem missing_argument_branches_unreachable (inputText : GoString) :
    (HasPrefix (TrimSpace inputText) "chat ".toList = true →
        TrimPrefix (TrimSpace inputText) "chat ".toList ≠ []) ∧
      (HasPrefix (TrimSpace inputText) "terminal ".toList = true →
        TrimPrefix (TrimSpace inputText) "terminal ".toList ≠ []) ∧
      (HasPrefix (TrimSpace inputText) "run ".toList = true →
        TrimPrefix (TrimSpace inputText) "run ".toList ≠ []) ∧
      parseCommand inputText ≠ Command.chatMissing ∧
      parseCommand inputText ≠ Command.terminalMissing ∧
      parseCommand inputText ≠ Command.runMissing ∧
      (∀ ws : GoString, (∀ c ∈ ws, isSpace c = true) →
        parseCommand ("chat".toList ++ ws) = Command.unknown ∧
        parseCommand ("terminal".toList ++ ws) = Command.unknown ∧
        parseCommand ("run".toList ++ ws) = Command.unknown) := by
  have hchat := trimPrefix_ne_nil inputText "chat ".toList (by decide) (by decide)
  have hterm := trimPrefix_ne_nil inputText "terminal ".toList (by decide) (by decide)
  have hrun := trimPrefix_ne_nil inputText "run ".toList (by decide) (by decide)
  refine ⟨hchat, hterm, hrun, ?_, ?_, ?_, ?_⟩
  · unfold parseCommand
    simp only []
    split_ifs <;> simp_all
  · unfold parseCommand
    simp only []
    split_ifs <;> simp_all
  · unfold parseCommand
    simp only []
    split_ifs <;> simp_all
  · intro ws hws
    have h1 : TrimSpace ("chat".toList ++ ws) = "chat".toList :=
      trimSpace_word_spaces 'c' "hat".toList ws (by decide) (by decide) hws
    have h2 : TrimSpace ("terminal".toList ++ ws) = "terminal".toList :=
      trimSpace_word_spaces 't' "erminal".toList ws (by decide) (by decide) hws
    have h3 : TrimSpace ("run".toList ++ ws) = "run".toList :=
      trimSpace_word_spaces 'r' "un".toList ws (by decide) (by decide) hws
    refine ⟨?_, ?_, ?_⟩
    · simp only [parseCommand, h1]; decide
    · simp only [parseCommand, h2]; decide
    · simp only [parseCommand, h3]; decide

theorem missing_argument_branches_unreachable_witness :
    parseCommand "chat   ".toList = Command.unknown ∧
    parseCommand "  run ".toList ≠ Command.runMissing :=
  ⟨((missing_argument_branches_unreachable []).2.2.2.2.2.2 "   ".toList (by decide)).1,
    (missing_argument_branches_unreachable "  run ".toList).2.2.2.2.2.1⟩

/-! ### The claim on `displayMultilineText` -/

theorem len_append (a b : GoString) : len (a ++ b) = len a + len b := by
  simp [len, List.sum_append]

theorem len_nil : len [] = 0 := rfl

theorem len_cons (c : Char) (s : GoString) : len (c :: s) = c.utf8Size + len s := by
  simp [len]

theorem len_space : len " ".toList = 1 := by decide

theorem wrapInt_succ (a : Int) : wrapInt (wrapInt a + 1) = wrapInt (a + 1) := by
  unfold wrapInt; omega

theorem wrapInt_of_inRange (a : Int) (h1 : -9223372036854775808 ≤ a)
    (h2 : a < 9223372036854775808) : wrapInt a = a := by
  unfold wrapInt; omega

theorem len_le_of_mem_split (sep : Char) (text : GoString) :
    ∀ line ∈ Split text sep, len line ≤ len text := by
  induction text with
  | nil =>
    intro line hl
    simp [Split] at hl
    rw [hl]
  | cons c cs ih =>
    intro line hl
    rw [len_cons]
    unfold Split at hl
    split_ifs at hl with hc
    · rcases List.mem_cons.1 hl with h | h
      · rw [h, len_nil]; omega
      · have := ih line h; omega
    · split at hl
      · simp at hl
        rw [hl, len_cons, len_nil]; omega
      · rename_i piece pieces hsp
        rcases List.mem_cons.1 hl with h | h
        · have := ih piece (by rw [hsp]; simp)
          rw [h, len_cons]; omega
        · have := ih line (by rw [hsp]; simp [h])
          omega

theorem wordsCost_cons (w : GoString) (ws : List GoString) :
    wordsCost (w :: ws) = len w + 1 + wordsCost ws := by
  simp [wordsCost]

theorem wordsCost_fieldsFrom (s : GoString) :
    ∀ cur, wordsCost (fieldsFrom cur s) ≤ len cur + len s + 1 := by
  induction s with
  | nil =>
    intro cur
    unfold fieldsFrom
    split_ifs
    · simp [wordsCost]
    · simp [wordsCost]
  | cons c cs ih =>
    intro cur
    have hc := Char.utf8Size_pos c
    rw [len_cons]
    unfold fieldsFrom
    split_ifs with h1 h2
    · have := ih []
      rw [len_nil] at this
      omega
    · have := ih []
      rw [len_nil] at this
      rw [wordsCost_cons]
      omega
    · have := ih (cur ++ [c])
      rw [len_append, len_cons, len_nil] at this
      omega

theorem wordsCost_fields (line : GoString) : wordsCost (Fields line) ≤ len line + 1 := by
  have := wordsCost_fieldsFrom line []
  rw [len_nil] at this
  unfold Fields
  omega

theorem rowsFrom_append (r0 : Int) (shown : List (Int × GoString)) (s : GoString)
    (h : RowsFrom r0 shown) :
    RowsFrom r0 (shown ++ [(wrapInt (r0 + (shown.length : Int)), s)]) := by
  unfold RowsFrom at h ⊢
  simp [List.range_succ, h]

theorem shownInv_append (maxWidth : Int) (Q : GoString → Prop) (r0 : Int)
    (acc : Int × List (Int × GoString)) (s : GoString)
    (hacc : ShownInv maxWidth Q r0 acc) (hs : (len s : Int) ≤ maxWidth ∨ Q s) :
    ShownInv maxWidth Q r0 (wrapInt (acc.1 + 1), acc.2 ++ [(acc.1, s)]) := by
  refine ⟨?_, ?_, ?_⟩
  · show wrapInt (acc.1 + 1) = wrapInt (r0 + ((acc.2 ++ [(acc.1, s)]).length : Int))
    rw [hacc.row, wrapInt_succ]
    congr 1
    simp
    omega
  · rw [hacc.row]; exact rowsFrom_append r0 acc.2 s hacc.rows
  · intro c hc
    rcases List.mem_append.1 hc with h | h
    · exact hacc.shown c h
    · simp at h; rw [h]; exact hs

theorem wrapWord_inv (maxWidth : Int) (Q : GoString → Prop) (r0 : Int) (st : WrapState)
    (word : GoString) (hst : WrapInv maxWidth Q r0 st)
    (hw : (len word : Int) ≤ maxWidth ∨ Q word)
    (hsum : (len st.currentLine : Int) + (len word : Int) + 1 < 9223372036854775808) :
    WrapInv maxWidth Q r0 (wrapWord maxWidth st word) := by
  have hwrap : wrapInt ((len st.currentLine : Int) + (len word : Int) + 1)
      = (len st.currentLine : Int) + (len word : Int) + 1 :=
    wrapInt_of_inRange _ (by omega) hsum
  unfold wrapWord
  rw [hwrap]
  split_ifs with h1 h2
  · exact ⟨shownInv_append maxWidth Q r0 (st.currentRow, st.shown) st.currentLine hst.acc
      hst.line, hw⟩
  · exact ⟨hst.acc, hw⟩
  · refine ⟨hst.acc, Or.inl ?_⟩
    rw [len_append, len_append, len_space]
    push_cast
    omega

theorem wrapWord_budget (maxWidth : Int) (st : WrapState) (word : GoString) :
    len (wrapWord maxWidth st word).currentLine ≤ len st.currentLine + len word + 1 := by
  unfold wrapWord
  split_ifs
  · simp only []; omega
  · simp only []; omega
  · simp only [len_append, len_space]; omega

theorem wrapWords_inv (maxWidth : Int) (Q : GoString → Prop) (r0 : Int) (bound : Nat)
    (hbound : (bound : Int) < 9223372036854775808) (words : List GoString) :
    ∀ st, WrapInv maxWidth Q r0 st →
      len st.currentLine + wordsCost words ≤ bound →
      (∀ w ∈ words, (len w : Int) ≤ maxWidth ∨ Q w) →
      WrapInv maxWidth Q r0 (words.foldl (wrapWord maxWidth) st) := by
  induction words with
  | nil => intro st hst _ _; exact hst
  | cons w rest ih =>
    intro st hst hb hw
    rw [wordsCost_cons] at hb
    have hstep := wrapWord_budget maxWidth st w
    have hsum : (len st.currentLine : Int) + (len w : Int) + 1 < 9223372036854775808 := by
      omega
    have hb2 : len (wrapWord maxWidth st w).currentLine + wordsCost rest ≤ bound := by
      omega
    have hw1 : (len w : Int) ≤ maxWidth ∨ Q w := hw w (List.mem_cons_self w rest)
    rw [List.foldl_cons]
    exact ih (wrapWord maxWidth st w) (wrapWord_inv maxWidth Q r0 st w hst hw1 hsum) hb2
      (fun x hx => hw x (List.mem_cons_of_mem w hx))

theorem displayLine_inv (maxWidth : Int) (Q : GoString → Prop) (r0 : Int)
    (acc : Int × List (Int × GoString)) (line : GoString) (h0 : 0 ≤ maxWidth)
    (hlen : (len line : Int) + 1 < 9223372036854775808)
    (hacc : ShownInv maxWidth Q r0 acc)
    (hline : (len line : Int) > maxWidth →
      ∀ w ∈ Fields line, (len w : Int) ≤ maxWidth ∨ Q w) :
    ShownInv maxWidth Q r0 (displayLine maxWidth acc line) := by
  unfold displayLine
  by_cases h1 : (len line : Int) > maxWidth
  · rw [if_pos h1]
    have hst := wrapWords_inv maxWidth Q r0 (len line + 1) (by push_cast; omega) (Fields line)
      { currentRow := acc.1, currentLine := [], shown := acc.2 }
      ⟨hacc, Or.inl (by rw [len_nil]; exact_mod_cast h0)⟩
      (by have := wordsCost_fields line; simp only [len_nil]; omega) (hline h1)
    show ShownInv maxWidth Q r0
      (if (List.foldl (wrapWord maxWidth)
            { currentRow := acc.1, currentLine := [], shown := acc.2 }
            (Fields line)).currentLine ≠ [] then _ else _)
    split_ifs with h2
    · exact shownInv_append maxWidth Q r0 (_, _) _ hst.acc hst.line
    · exact hst.acc
  · rw [if_neg h1]
    exact shownInv_append maxWidth Q r0 acc line hacc (Or.inl (by omega))

theorem displayLines_inv (maxWidth : Int) (Q : GoString → Prop) (r0 : Int)
    (h0 : 0 ≤ maxWidth) (lines : List GoString) :
    ∀ acc, ShownInv maxWidth Q r0 acc →
      (∀ line ∈ lines, (len line : Int) + 1 < 9223372036854775808) →
      (∀ line ∈ lines, (len line : Int) > maxWidth →
        ∀ w ∈ Fields line, (len w : Int) ≤ maxWidth ∨ Q w) →
      ShownInv maxWidth Q r0 (lines.foldl (displayLine maxWidth) acc) := by
  induction lines with
  | nil => intro acc hacc _ _; exact hacc
  | cons l rest ih =>
    intro acc hacc hlen hl
    exact ih _
      (displayLine_inv maxWidth Q r0 acc l h0 (hlen l (by simp)) hacc (hl l (by simp)))
      (fun x hx => hlen x (by simp [hx]))
      (fun x hx => hl x (by simp [hx]))

theorem displayLines_short (maxWidth : Int) (lines : List GoString) :
    ∀ acc : Int × List (Int × GoString),
      (∀ line ∈ lines, (len line : Int) ≤ maxWidth) →
      (lines.foldl (displayLine maxWidth) acc).2.map Prod.snd
        = acc.2.map Prod.snd ++ lines := by
  induction lines with
  | nil => intro acc _; simp
  | cons l rest ih =>
    intro acc hl
    have h1 : ¬ ((len l : Int) > maxWidth) := by
      have := hl l (by simp); omega
    rw [List.foldl_cons, ih _ (fun x hx => hl x (by simp [hx]))]
    simp [displayLine, h1]

/-- C9, as the claim states it, fails twice: a word longer than `maxWidth` is displayed
whole, on a row of its own; and at the largest `int` the returned row wraps around instead
of being `startRow` plus the number of rows displayed. -/
theorem displayMultilineText_long_word_counterexample :
    ¬ (∀ (startRow : Int) (text : GoString) (maxWidth : Int), 1 ≤ maxWidth →
        ∀ c ∈ (displayMultilineText startRow text maxWidth).2, (len c.2 : Int) ≤ maxWidth) ∧
    ¬ (∀ (startRow : Int) (text : GoString) (maxWidth : Int), 1 ≤ maxWidth →
        -9223372036854775808 ≤ startRow → startRow ≤ 9223372036854775807 →
        (displayMultilineText startRow text maxWidth).1
          = startRow + ((displayMultilineText startRow text maxWidth).2.length : Int)) := by
  constructor
  · intro h
    exact absurd (h 4 "aaaa".toList 3 (by decide) (5, "aaaa".toList) (by decide)) (by decide)
  · intro h
    exact absurd (h 9223372036854775807 "a".toList 10 (by decide) (by decide) (by decide))
      (by decide)

/-- C9, amended: for every text (of fewer than `2^63 - 1` bytes), every `startRow` of type
`int` and every `maxWidth >= 1`, `displayMultilineText` returns `startRow` plus the number
of rows it displayed in `int` arithmetic (exactly that sum when it does not exceed the
largest `int`), the rows are consecutive from `startRow`, and every row it passes to
`displayText` is at most `maxWidth` bytes long or is a single word (a field of a line
longer than `maxWidth`) that is itself longer than `maxWidth`; in particular every row is
at most `maxWidth` bytes long when no word of a line longer than `maxWidth` exceeds
`maxWidth` bytes, and when no line exceeds `maxWidth` the rows are the lines. -/
theorem displayMultilineText_rows (startRow : Int) (text : GoString) (maxWidth : Int)
    (h : 1 ≤ maxWidth)
    (hrow : -9223372036854775808 ≤ startRow ∧ startRow ≤ 9223372036854775807)
    (htext : (len text : Int) + 1 < 9223372036854775808) :
    (displayMultilineText startRow text maxWidth).1
        = wrapInt (startRow + ((displayMultilineText startRow text maxWidth).2.length : Int)) ∧
      (startRow + ((displayMultilineText startRow text maxWidth).2.length : Int)
          ≤ 9223372036854775807 →
        (displayMultilineText startRow text maxWidth).1
          = startRow + ((displayMultilineText startRow text maxWidth).2.length : Int)) ∧
      (displayMultilineText startRow text maxWidth).2.map Prod.fst
        = (List.range (displayMultilineText startRow text maxWidth).2.length).map
            (fun k => wrapInt (startRow + (k : Int))) ∧
      (∀ c ∈ (displayMultilineText startRow text maxWidth).2,
        (len c.2 : Int) ≤ maxWidth ∨
          ∃ line ∈ Split text newline, (len line : Int) > maxWidth ∧ c.2 ∈ Fields line ∧
            (len c.2 : Int) > maxWidth) ∧
      ((∀ line ∈ Split text newline, (len line : Int) > maxWidth →
          ∀ w ∈ Fields line, (len w : Int) ≤ maxWidth) →
        ∀ c ∈ (displayMultilineText startRow text maxWidth).2, (len c.2 : Int) ≤ maxWidth) ∧
      ((∀ line ∈ Split text newline, (len line : Int) ≤ maxWidth) →
        (displayMultilineText startRow text maxWidth).2.map Prod.snd
          = Split text newline) := by
  have hinv := displayLines_inv maxWidth
    (fun c => ∃ line ∈ Split text newline, (len line : Int) > maxWidth ∧ c ∈ Fields line ∧
      (len c : Int) > maxWidth)
    startRow (by omega) (Split text newline) (startRow, [])
    ⟨by simp [wrapInt_of_inRange startRow hrow.1 (by omega)], by simp [RowsFrom], by simp⟩
    (by
      intro line hl
      have := len_le_of_mem_split newline text line hl
      omega)
    (by
      intro line hl hlong w hw
      by_cases hwl : (len w : Int) ≤ maxWidth
      · exact Or.inl hwl
      · exact Or.inr ⟨line, hl, hlong, hw, by omega⟩)
  refine ⟨hinv.row, ?_, hinv.rows, hinv.shown, ?_, ?_⟩
  · intro hfit
    have hr := hinv.row
    unfold displayMultilineText at hr hfit ⊢
    rw [hr]
    exact wrapInt_of_inRange _ (by omega) (by omega)
  · intro hwords c hc
    rcases hinv.shown c hc with h1 | ⟨line, hl, hlong, hw, hgt⟩
    · exact h1
    · have := hwords line hl hlong c.2 hw
      omega
  · intro hshort
    have := displayLines_short maxWidth (Split text newline) (startRow, []) hshort
    simpa [displayMultilineText] using this

theorem displayMultilineText_rows_witness :
    displayMultilineText 4 "aa bb cc\nd".toList 5
      = (7, [(4, "aa bb".toList), (5, "cc".toList), (6, "d".toList)]) ∧
    (displayMultilineText 4 "aa bb cc\nd".toList 5).1
      = 4 + ((displayMultilineText 4 "aa bb cc\nd".toList 5).2.length : Int) :=
  ⟨by decide,
    (displayMultilineText_rows 4 "aa bb cc\nd".toList 5 (by decide) (by decide)
      (by decide)).2.1 (by decide)⟩

end AiTerminal
